import Mathlib

/-!
Shallow embedding of the `ribbon` crate (src/src/band.rs, src/src/tape.rs,
src/src/ribbon.rs) and proofs about the claims of the specification.

Modelling conventions:
* A Rust `Iterator` (the source) is a `List α` of the items still pending;
  exhaustion is permanent, matching the spec's source contract.
* Machine integers (`usize`) are `Nat`; Rust `saturating_sub` is `Nat` subtraction.
* Operations that can panic in Rust (array indexing out of bounds, `% 0`,
  unchecked `usize` subtraction overflow) return `Option`: `none` models a panic,
  `some` carries the result.  Panic-free paths are `some`.
-/

namespace Ribbon

/-- One pull from a source: yields the front pending item (if any) and the rest. -/
def iterNext (it : List α) : Option α × List α :=
  match it with
  | [] => (none, [])
  | x :: xs => (some x, xs)

/-- `Band<LEN, I>` from band.rs: fixed storage of optional slots, a head index and a
length counter.  The capacity `LEN` is `tape.length` (constant under all operations). -/
structure Band (α : Type) where
  iter : List α
  tape : List (Option α)
  head : Nat
  len : Nat
deriving DecidableEq

/-- `Band::new`: storage of `LEN` empty slots, `head = 0`, `len = 0`. -/
def Band.new (LEN : Nat) (it : List α) : Band α :=
  ⟨it, List.replicate LEN none, 0, 0⟩

/-- `Band::is_full`: `self.len() == LEN`. -/
def Band.isFull (b : Band α) : Bool :=
  b.len == b.tape.length

/-- `Band::slide`: `let first = self.tape[self.head].take()?; self.incr_head();
self.len = self.len.saturating_sub(1); Some(first)`.  Indexing `tape[head]` out of
bounds panics (`none`); a `none` slot makes `take()?` return early with no state
change; `incr_head` computes `(head + 1) % LEN`. -/
def Band.slide (b : Band α) : Option (Option α × Band α) :=
  match b.tape[b.head]? with
  | none => none
  | some none => some (none, b)
  | some (some x) =>
    some (some x, { b with tape := b.tape.set b.head none,
                           head := (b.head + 1) % b.tape.length,
                           len := b.len - 1 })

/-- `Band::tail`: `(self.head + self.len.saturating_sub(1)) % LEN`; `% 0` panics. -/
def Band.tailIdx (b : Band α) : Option Nat :=
  if b.tape.length = 0 then none
  else some ((b.head + (b.len - 1)) % b.tape.length)

/-- `Band::progress`: pull one item (`?` no-op when exhausted), `slide`
unconditionally, increment `len`, then store the new item at `tail()`. -/
def Band.progress (b : Band α) : Option (Option α × Band α) :=
  match iterNext b.iter with
  | (none, _) => some (none, b)
  | (some x, it2) =>
    match Band.slide { b with iter := it2 } with
    | none => none
    | some (hd, b2) =>
      let b3 : Band α := { b2 with len := b2.len + 1 }
      match Band.tailIdx b3 with
      | none => none
      | some t => some (hd, { b3 with tape := b3.tape.set t (some x) })

/-- `Band::expand` from band.rs: `if self.is_full() { self.slide(); } else {
self.tape[self.len] = self.iter.next(); self.len += 1; }`.  The Rust body returns
unit even though the `Ribbon` trait requires `-> bool`, so the file as given does
not type-check; the returned flag here is Modelled from the spec: the trait doc
"Returns `true` if `Ribbon` is expanded" — `true` exactly when an item was pulled
and appended (the non-full branch with a producing source), `false` otherwise. -/
def Band.expand (b : Band α) : Option (Band α × Bool) :=
  if b.isFull then
    match Band.slide b with
    | none => none
    | some (_, b2) => some (b2, false)
  else
    match b.tape[b.len]? with
    | none => none
    | some _ =>
      let p := iterNext b.iter
      some ({ b with iter := p.2, tape := b.tape.set b.len p.1, len := b.len + 1 },
            p.1.isSome)

/-- `Band::pop_front`: `self.slide()`. -/
def Band.popFront (b : Band α) : Option (Option α × Band α) :=
  Band.slide b

/-- `Band::pop_back`: `let back = self.tape[self.tail()].take()?; self.len -= 1;`
(`self.len -= 1` is an unchecked `usize` subtraction: underflow panics). -/
def Band.popBack (b : Band α) : Option (Option α × Band α) :=
  match Band.tailIdx b with
  | none => none
  | some t =>
    match b.tape[t]? with
    | none => none
    | some none => some (none, b)
    | some (some x) =>
      if b.len = 0 then none
      else some (some x, { b with tape := b.tape.set t none, len := b.len - 1 })

/-- `Band::peek_at`: reject `index >= LEN`, otherwise read slot `(head + index) % LEN`
(always in bounds, so total). -/
def Band.peekAt (b : Band α) (i : Nat) : Option α :=
  if b.tape.length ≤ i then none
  else (b.tape[(b.head + i) % b.tape.length]?).join

/-- `Band::peek_front`: `self.peek_at(0)`. -/
def Band.peekFront (b : Band α) : Option α :=
  b.peekAt 0

/-- `Band::peek_back`: `self.peek_at(self.tail())` — the physical tail index is
passed to the logical accessor `peek_at`; the outer `Option` models the `% 0`
panic inside `tail()`. -/
def Band.peekBack (b : Band α) : Option (Option α) :=
  (Band.tailIdx b).map b.peekAt

/-- `Band::len`. -/
def Band.length (b : Band α) : Nat :=
  b.len

/-- `Tape<I>` from tape.rs: a `VecDeque` of held items (front = oldest) plus the
owned source. -/
structure Tape (α : Type) where
  iter : List α
  tape : List α
deriving DecidableEq

/-- `Tape::new`: empty storage. -/
def Tape.new (it : List α) : Tape α :=
  ⟨it, []⟩

/-- `Tape::progress`: pull one item (`?` no-op when exhausted), `pop_front`, then
`push_back` the new item, returning the popped front. -/
def Tape.progress (t : Tape α) : Option α × Tape α :=
  match iterNext t.iter with
  | (none, _) => (none, t)
  | (some x, it2) => (t.tape.head?, ⟨it2, t.tape.tail ++ [x]⟩)

/-- `Tape::expand`: push the pulled item at the back and return `true`; `false` when
the source is exhausted (state unchanged). -/
def Tape.expand (t : Tape α) : Tape α × Bool :=
  match iterNext t.iter with
  | (none, _) => (t, false)
  | (some x, it2) => (⟨it2, t.tape ++ [x]⟩, true)

/-- `Tape::pop_front`: `self.tape.pop_front()`. -/
def Tape.popFront (t : Tape α) : Option α × Tape α :=
  (t.tape.head?, ⟨t.iter, t.tape.tail⟩)

/-- `Tape::peek_front`: `self.tape.front()`. -/
def Tape.peekFront (t : Tape α) : Option α :=
  t.tape.head?

/-- `Tape::pop_back`: `self.tape.pop_back()`. -/
def Tape.popBack (t : Tape α) : Option α × Tape α :=
  (t.tape.getLast?, ⟨t.iter, t.tape.dropLast⟩)

/-- `Tape::peek_back`: `self.tape.back()`. -/
def Tape.peekBack (t : Tape α) : Option α :=
  t.tape.getLast?

/-- `Tape::peek_at`: `self.tape.get(index)`. -/
def Tape.peekAt (t : Tape α) (i : Nat) : Option α :=
  t.tape[i]?

/-- `Tape::len`. -/
def Tape.length (t : Tape α) : Nat :=
  t.tape.length

/-- The `Ribbon::expand_n` default body from ribbon.rs, generic in the implementer's
`expand` step: `let mut expanded = false; for _ in 0..n { expanded |= self.expand();
if !expanded { break; } } expanded`. -/
def expandLoop (step : σ → σ × Bool) : Nat → σ → Bool → σ × Bool
  | 0, s, expanded => (s, expanded)
  | f + 1, s, expanded =>
    let p := step s
    let ex := expanded || p.2
    if ex then expandLoop step f p.1 ex else (p.1, false)

/-- `Ribbon::expand_n(n)` (loop entered with `expanded = false`). -/
def expandN (step : σ → σ × Bool) (n : Nat) (s : σ) : σ × Bool :=
  expandLoop step n s false

/-- `expandLoop` instrumented with the list of flags reported by the successive
`expand` calls, one entry per call actually issued by the loop. -/
def expandLoopTrace (step : σ → σ × Bool) : Nat → σ → Bool → σ × Bool × List Bool
  | 0, s, expanded => (s, expanded, [])
  | f + 1, s, expanded =>
    let p := step s
    let ex := expanded || p.2
    if ex then
      let q := expandLoopTrace step f p.1 ex
      (q.1, q.2.1, p.2 :: q.2.2)
    else (p.1, false, [p.2])

/-- `Ribbon::expand_n(n)` with its call trace. -/
def expandNTrace (step : σ → σ × Bool) (n : Nat) (s : σ) : σ × Bool × List Bool :=
  expandLoopTrace step n s false

/-- `Band`'s inherited `Ribbon::expand_n`, threading the panic monad of `Band.expand`. -/
def Band.expandNAux : Nat → Band α → Bool → Option (Band α × Bool)
  | 0, b, expanded => some (b, expanded)
  | f + 1, b, expanded =>
    match Band.expand b with
    | none => none
    | some (b2, e) =>
      let ex := expanded || e
      if ex then Band.expandNAux f b2 ex else some (b2, false)

/-- `Band.expand_n(n)`. -/
def Band.expandN (n : Nat) (b : Band α) : Option (Band α × Bool) :=
  Band.expandNAux n b false

/-- `<Band as Iterator>::next`: `if self.is_empty() { self.expand_n(LEN); }
self.pop_front()` with `LEN` the fixed capacity (`tape.length`). -/
def Band.next (b : Band α) : Option (Option α × Band α) :=
  match (if b.len = 0 then Band.expandN b.tape.length b else some (b, false)) with
  | none => none
  | some (b2, _) => Band.popFront b2

/-- Drive a `Band` through `k` successive `next` calls, collecting the outputs. -/
def Band.runIter : Nat → Band α → Option (List (Option α) × Band α)
  | 0, b => some ([], b)
  | k + 1, b =>
    match Band.next b with
    | none => none
    | some (v, b2) =>
      match Band.runIter k b2 with
      | none => none
      | some (vs, b3) => some (v :: vs, b3)

/-- Run a sequence of (possibly panicking) `Band` operations from a start state. -/
def Band.runOps (ops : List (Band α → Option (Band α))) (b : Band α) : Option (Band α) :=
  ops.foldl (fun ob op => ob.bind op) (some b)

/-- `expand` as a state transformer (result flag discarded, as callers may do). -/
def opE (b : Band α) : Option (Band α) :=
  (Band.expand b).map Prod.fst

/-- `progress` as a state transformer (returned front discarded). -/
def opP (b : Band α) : Option (Band α) :=
  (Band.progress b).map Prod.snd

/-- `pop_front` as a state transformer (returned item discarded). -/
def opPF (b : Band α) : Option (Band α) :=
  (Band.popFront b).map Prod.snd

/-- `pop_back` as a state transformer (returned item discarded). -/
def opPB (b : Band α) : Option (Band α) :=
  (Band.popBack b).map Prod.snd

end Ribbon

namespace Ribbon

/-- C1: at full capacity with a producing source, `Band::expand` does not pull the
pending item, appends nothing, evicts the oldest item anyway, and decrements the
length — contradicting the claimed pull/evict/append with fixed length.  Shown on a
`Band` of capacity 1 over source `[10, 20]`: after one expand it holds `10` and is
full; the second expand leaves the source untouched (`20` still pending), empties
the buffer (`len = 0`) and reports no growth. -/
theorem band_expand_full_drops_and_pulls_nothing :
    Band.expand (Band.new 1 [10, 20]) = some (⟨[20], [some 10], 0, 1⟩, true) ∧
    Band.expand (⟨[20], [some 10], 0, 1⟩ : Band Nat) = some (⟨[20], [none], 0, 0⟩, false) := by
  decide

/-- C2 counterexample: a `Tape` (always "below evicting capacity" per the claim)
holding one item with a producing source: `progress` returns the held front item
`0` (not "nothing") and the length stays `1` (not `2`). -/
theorem tape_progress_nonempty_not_plain_append :
    (Tape.expand (Tape.new [0, 1])).1 = (⟨[1], [0]⟩ : Tape Nat) ∧
    Tape.progress (⟨[1], [0]⟩ : Tape Nat) = (some 0, ⟨[], [1]⟩) ∧
    ¬ ((Tape.progress (⟨[1], [0]⟩ : Tape Nat)).1 = none ∧
       (Tape.progress (⟨[1], [0]⟩ : Tape Nat)).2.length = Tape.length (⟨[1], [0]⟩ : Tape Nat) + 1) := by
  decide

/-- C3: with the source exhausted, `Band::expand` still mutates the buffer: on an
empty capacity-2 `Band` over an empty source it bumps `len` from 0 to 1 (and marks
no growth only in the modelled flag — the Rust body returns unit); on a full
capacity-1 `Band` over an exhausted source it evicts the held item `7`. -/
theorem band_expand_after_exhaustion_mutates_state :
    Band.expand (Band.new 2 ([] : List Nat)) = some (⟨[], [none, none], 0, 1⟩, false) ∧
    (⟨[], [none, none], 0, 1⟩ : Band Nat).length ≠ (Band.new 2 ([] : List Nat)).length ∧
    Band.expand (⟨[], [some 7], 0, 1⟩ : Band Nat) = some (⟨[], [none], 0, 0⟩, false) := by
  decide

/-- C4: the capacity invariant `length() ≤ N` is violated on a reachable state: on a
`Band` of capacity 3 over source `0,…,6`, the operation sequence expand ×3,
pop_front ×2, pop_back, expand ×2, progress ×2 ends with `len = 4 > 3`. -/
theorem band_len_exceeds_capacity_reachable :
    Band.runOps [opE, opE, opE, opPF, opPF, opPB, opE, opE, opP, opP]
        (Band.new 3 [0, 1, 2, 3, 4, 5, 6])
      = some ⟨[], [some 3, some 5, some 6], 2, 4⟩ ∧
    3 < (⟨[], [some 3, some 5, some 6], 2, 4⟩ : Band Nat).length := by
  decide

/-- C5: index consistency fails on a reachable `Band` state: capacity 3 over source
`0,…,3`, after expand ×3, pop_front ×2, pop_back, expand the buffer holds exactly
the single item `3` (at physical slot 0 with `head = 2`), yet `peek_at(0)` returns
nothing and `peek_at(1)` returns `3`. -/
theorem band_peek_at_index_inconsistency :
    Band.runOps [opE, opE, opE, opPF, opPF, opPB, opE] (Band.new 3 [0, 1, 2, 3])
      = some ⟨[], [some 3, none, none], 2, 1⟩ ∧
    Band.peekAt (⟨[], [some 3, none, none], 2, 1⟩ : Band Nat) 0 = none ∧
    Band.peekAt (⟨[], [some 3, none, none], 2, 1⟩ : Band Nat) 1 = some 3 := by
  decide

/-- C6: `Band::peek_back` feeds the physical tail index into the logical accessor
`peek_at`, so it misses the newest held item once `head ≠ 0`: capacity 5 over
source `0,…,4`, after expand ×5 and one pop_front the newest item is `4`
(`peek_at(len − 1) = some 4`), but `peek_back` returns nothing. -/
theorem band_peek_back_misses_newest_item :
    Band.runOps [opE, opE, opE, opE, opE, opPF] (Band.new 5 [0, 1, 2, 3, 4])
      = some ⟨[], [none, some 1, some 2, some 3, some 4], 1, 4⟩ ∧
    Band.peekBack (⟨[], [none, some 1, some 2, some 3, some 4], 1, 4⟩ : Band Nat) = some none ∧
    Band.peekAt (⟨[], [none, some 1, some 2, some 3, some 4], 1, 4⟩ : Band Nat)
      ((⟨[], [none, some 1, some 2, some 3, some 4], 1, 4⟩ : Band Nat).length - 1) = some 4 := by
  decide

/-- C8 counterexample: `expand_n(3)` on a `Tape` over the one-item source `[0]`
issues three `expand` calls with reported flags `[true, false, false]`: a further
call is issued after the second call already reported no growth, so the loop does
not stop at the first no-growth report. -/
theorem expand_n_keeps_calling_after_failed_expand :
    expandNTrace Tape.expand 3 (Tape.new [0]) = (⟨[], [0]⟩, true, [true, false, false]) ∧
    (expandNTrace Tape.expand 3 (Tape.new [0])).2.2.length = 3 := by
  decide

/-- C10: a `Band` of capacity 0 is constructed fine (empty, all peeks rejected), but
every mutating operation hits the zero-length storage or a `% 0`: `expand`,
`progress` (when the source produces), `pop_front` and `pop_back` all panic
(modelled as `none`), while `peek_at` rejects every index and stays total. -/
theorem band_zero_capacity_mutators_hit_error_branch :
    ∀ (α : Type) (x : α) (it : List α) (i : Nat),
      (Band.new 0 (x :: it)).length = 0 ∧
      Band.expand (Band.new 0 (x :: it)) = none ∧
      Band.progress (Band.new 0 (x :: it)) = none ∧
      Band.popFront (Band.new 0 (x :: it)) = none ∧
      Band.popBack (Band.new 0 (x :: it)) = none ∧
      Band.peekAt (Band.new 0 (x :: it)) i = none := by
  intro α x it i
  refine ⟨rfl, rfl, rfl, rfl, rfl, ?_⟩
  simp [Band.peekAt, Band.new]

end Ribbon

namespace Ribbon

/-- Number of occupied (non-empty) storage slots of a `Band`. -/
def occ (t : List (Option α)) : Nat :=
  t.countP (fun o => o.isSome)

theorem occ_nil : occ ([] : List (Option α)) = 0 := rfl

theorem occ_cons (o : Option α) (t : List (Option α)) :
    occ (o :: t) = occ t + (if o.isSome then 1 else 0) := by
  simp [occ, List.countP_cons]

theorem occ_replicate_none (n : Nat) : occ (List.replicate n (none : Option α)) = 0 := by
  induction n with
  | zero => rfl
  | succ n ih => simp [List.replicate_succ, occ_cons, ih]

theorem occ_set_le (l : List (Option α)) (i : Nat) (v : Option α) :
    occ (l.set i v) ≤ occ l + 1 := by
  induction l generalizing i with
  | nil => simp [occ_nil]
  | cons a t ih =>
    cases i with
    | zero =>
      simp only [List.set_cons_zero, occ_cons]
      cases v <;> cases a <;> (simp; try omega)
    | succ j =>
      simp only [List.set_cons_succ, occ_cons]
      have := ih j
      omega

theorem occ_set_none (l : List (Option α)) (i : Nat) (x : α) (h : l[i]? = some (some x)) :
    occ (l.set i none) + 1 = occ l := by
  induction l generalizing i with
  | nil => simp at h
  | cons a t ih =>
    cases i with
    | zero =>
      simp only [List.getElem?_cons_zero, Option.some_inj] at h
      subst h
      simp [occ_cons]
    | succ j =>
      simp only [List.getElem?_cons_succ] at h
      have := ih j h
      simp only [List.set_cons_succ, occ_cons]
      omega

theorem occ_set_some_eq (l : List (Option α)) (i : Nat) (x y : α)
    (h : l[i]? = some (some x)) : occ (l.set i (some y)) = occ l := by
  induction l generalizing i with
  | nil => simp at h
  | cons a t ih =>
    cases i with
    | zero =>
      simp only [List.getElem?_cons_zero, Option.some_inj] at h
      subst h
      simp [occ_cons]
    | succ j =>
      simp only [List.getElem?_cons_succ] at h
      have := ih j h
      simp only [List.set_cons_succ, occ_cons]
      omega

theorem occ_pos (l : List (Option α)) (i : Nat) (x : α) (h : l[i]? = some (some x)) :
    1 ≤ occ l := by
  induction l generalizing i with
  | nil => simp at h
  | cons a t ih =>
    cases i with
    | zero =>
      simp only [List.getElem?_cons_zero, Option.some_inj] at h
      subst h
      simp [occ_cons]
    | succ j =>
      simp only [List.getElem?_cons_succ] at h
      have := ih j h
      simp only [occ_cons]
      omega

theorem occ_zero_slot (l : List (Option α)) (i : Nat) (o : Option α)
    (h0 : occ l = 0) (h : l[i]? = some o) : o = none := by
  cases o with
  | none => rfl
  | some x => exact absurd h0 (by have := occ_pos l i x h; omega)

/-- States reachable from `a` by the mutating `Ribbon` operations of `Band`
(`expand`, `progress`, `pop_front`, `pop_back`, plus in-place item mutation through
`peek_at_mut`/`peek_front_mut`/`peek_back_mut`; `expand_n` and the iterator `next`
are compositions of these).  Panicking runs produce no successor state. -/
inductive Reach : Band α → Band α → Prop where
  | refl (b : Band α) : Reach b b
  | expand {a b c : Band α} {e : Bool} :
      Reach a b → Band.expand b = some (c, e) → Reach a c
  | progress {a b c : Band α} {v : Option α} :
      Reach a b → Band.progress b = some (v, c) → Reach a c
  | popFront {a b c : Band α} {v : Option α} :
      Reach a b → Band.popFront b = some (v, c) → Reach a c
  | popBack {a b c : Band α} {v : Option α} :
      Reach a b → Band.popBack b = some (v, c) → Reach a c
  | mutate {a b : Band α} {i : Nat} {x y : α} :
      Reach a b → b.tape[i]? = some (some x) →
      Reach a { b with tape := b.tape.set i (some y) }

/-- Structural invariant maintained by every `Band` operation: the number of
occupied slots never exceeds the `len` counter, and `head` stays inside the
storage (or at its initial `0`). -/
def Inv (b : Band α) : Prop :=
  occ b.tape ≤ b.len ∧ (b.head = 0 ∨ b.head < b.tape.length)

theorem inv_new (LEN : Nat) (it : List α) : Inv (Band.new LEN it) := by
  constructor
  · simp [Band.new, occ_replicate_none]
  · left; rfl

theorem inv_slide {b : Band α} {v : Option α} {c : Band α}
    (hb : Inv b) (h : Band.slide b = some (v, c)) :
    Inv c ∧ c.tape.length = b.tape.length := by
  unfold Band.slide at h
  cases hs : b.tape[b.head]? with
  | none => rw [hs] at h; exact absurd h (by simp)
  | some o =>
    cases o with
    | none =>
      rw [hs] at h
      simp only [Option.some_inj, Prod.mk.injEq] at h
      obtain ⟨rfl, rfl⟩ := h
      exact ⟨hb, rfl⟩
    | some x =>
      rw [hs] at h
      simp only [Option.some_inj, Prod.mk.injEq] at h
      obtain ⟨rfl, rfl⟩ := h
      obtain ⟨h1, h2⟩ := hb
      obtain ⟨hlt, -⟩ := List.getElem?_eq_some.mp hs
      have hpos : 0 < b.tape.length := lt_of_le_of_lt (Nat.zero_le _) hlt
      have hocc := occ_set_none b.tape b.head x hs
      have hop := occ_pos b.tape b.head x hs
      refine ⟨⟨?_, Or.inr ?_⟩, ?_⟩
      · show occ (b.tape.set b.head none) ≤ b.len - 1
        omega
      · show (b.head + 1) % b.tape.length < (b.tape.set b.head none).length
        rw [List.length_set]
        exact Nat.mod_lt _ hpos
      · simp [List.length_set]

theorem inv_expand {b c : Band α} {e : Bool}
    (hb : Inv b) (h : Band.expand b = some (c, e)) :
    Inv c ∧ c.tape.length = b.tape.length := by
  unfold Band.expand at h
  by_cases hf : b.isFull
  · rw [if_pos hf] at h
    cases hs : Band.slide b with
    | none => rw [hs] at h; exact absurd h (by simp)
    | some p =>
      rw [hs] at h
      simp only [Option.some_inj, Prod.mk.injEq] at h
      obtain ⟨rfl, rfl⟩ := h
      exact inv_slide hb (by rw [hs])
  · rw [if_neg hf] at h
    cases hs : b.tape[b.len]? with
    | none => rw [hs] at h; exact absurd h (by simp)
    | some o =>
      rw [hs] at h
      simp only [Option.some_inj, Prod.mk.injEq] at h
      obtain ⟨rfl, rfl⟩ := h
      obtain ⟨h1, h2⟩ := hb
      have hocc := occ_set_le b.tape b.len (iterNext b.iter).1
      refine ⟨⟨?_, ?_⟩, ?_⟩
      · show occ (b.tape.set b.len (iterNext b.iter).1) ≤ b.len + 1
        omega
      · show b.head = 0 ∨ b.head < (b.tape.set b.len (iterNext b.iter).1).length
        rw [List.length_set]
        exact h2
      · show (b.tape.set b.len (iterNext b.iter).1).length = b.tape.length
        rw [List.length_set]

theorem inv_progress {b : Band α} {v : Option α} {c : Band α}
    (hb : Inv b) (h : Band.progress b = some (v, c)) :
    Inv c ∧ c.tape.length = b.tape.length := by
  unfold Band.progress at h
  cases hit : b.iter with
  | nil =>
    rw [hit] at h
    simp only [iterNext] at h
    obtain ⟨rfl, rfl⟩ := h
    exact ⟨hb, rfl⟩
  | cons x xs =>
    rw [hit] at h
    simp only [iterNext] at h
    have hb' : Inv ({ b with iter := xs } : Band α) := hb
    cases hs : Band.slide ({ b with iter := xs } : Band α) with
    | none => rw [hs] at h; exact absurd h (by simp)
    | some p =>
      obtain ⟨hd, b2⟩ := p
      have hinv2 := inv_slide hb' hs
      obtain ⟨⟨h21, h22⟩, hlen2⟩ := hinv2
      rw [hs] at h
      simp only at h
      cases ht : Band.tailIdx ({ b2 with len := b2.len + 1 } : Band α) with
      | none => rw [ht] at h; exact absurd h (by simp)
      | some t =>
        rw [ht] at h
        simp only [Option.some_inj, Prod.mk.injEq] at h
        obtain ⟨rfl, rfl⟩ := h
        have hocc := occ_set_le b2.tape t (some x)
        refine ⟨⟨?_, ?_⟩, ?_⟩
        · show occ (b2.tape.set t (some x)) ≤ b2.len + 1
          omega
        · show b2.head = 0 ∨ b2.head < (b2.tape.set t (some x)).length
          rw [List.length_set]
          exact h22
        · show (b2.tape.set t (some x)).length = b.tape.length
          rw [List.length_set]
          exact hlen2

theorem inv_popBack {b : Band α} {v : Option α} {c : Band α}
    (hb : Inv b) (h : Band.popBack b = some (v, c)) :
    Inv c ∧ c.tape.length = b.tape.length := by
  unfold Band.popBack at h
  cases ht : Band.tailIdx b with
  | none => rw [ht] at h; exact absurd h (by simp)
  | some t =>
    rw [ht] at h
    simp only at h
    cases hs : b.tape[t]? with
    | none => rw [hs] at h; exact absurd h (by simp)
    | some o =>
      rw [hs] at h
      cases o with
      | none =>
        simp only [Option.some_inj, Prod.mk.injEq] at h
        obtain ⟨rfl, rfl⟩ := h
        exact ⟨hb, rfl⟩
      | some x =>
        simp only at h
        by_cases hz : b.len = 0
        · rw [if_pos hz] at h; exact absurd h (by simp)
        · rw [if_neg hz] at h
          simp only [Option.some_inj, Prod.mk.injEq] at h
          obtain ⟨rfl, rfl⟩ := h
          obtain ⟨h1, h2⟩ := hb
          have hocc := occ_set_none b.tape t x hs
          refine ⟨⟨?_, ?_⟩, by simp [List.length_set]⟩
          · show occ (b.tape.set t none) ≤ b.len - 1
            omega
          · show b.head = 0 ∨ b.head < (b.tape.set t none).length
            rw [List.length_set]
            exact h2

theorem inv_mutate {b : Band α} {i : Nat} {x y : α}
    (hb : Inv b) (h : b.tape[i]? = some (some x)) :
    Inv ({ b with tape := b.tape.set i (some y) } : Band α) ∧
      (b.tape.set i (some y)).length = b.tape.length := by
  have hocc := occ_set_some_eq b.tape i x y h
  refine ⟨⟨?_, ?_⟩, by simp [List.length_set]⟩
  · simp only
    rw [hocc]
    exact hb.1
  · simp only [List.length_set]
    exact hb.2

/-- Every operation sequence preserves the structural invariant and the capacity
(the storage length). -/
theorem reach_inv {a b : Band α} (h : Reach a b) (ha : Inv a) :
    Inv b ∧ b.tape.length = a.tape.length := by
  induction h with
  | refl => exact ⟨ha, rfl⟩
  | expand hr hs ih => exact ⟨(inv_expand ih.1 hs).1, by rw [(inv_expand ih.1 hs).2, ih.2]⟩
  | progress hr hs ih => exact ⟨(inv_progress ih.1 hs).1, by rw [(inv_progress ih.1 hs).2, ih.2]⟩
  | popFront hr hs ih => exact ⟨(inv_slide ih.1 hs).1, by rw [(inv_slide ih.1 hs).2, ih.2]⟩
  | popBack hr hs ih => exact ⟨(inv_popBack ih.1 hs).1, by rw [(inv_popBack ih.1 hs).2, ih.2]⟩
  | mutate hr hs ih => exact ⟨(inv_mutate ih.1 hs).1, by rw [(inv_mutate ih.1 hs).2, ih.2]⟩

end Ribbon

namespace Ribbon

theorem getElem?_set_self_of_lt (l : List β) (i : Nat) (v : β) (h : i < l.length) :
    (l.set i v)[i]? = some v := by
  induction l generalizing i with
  | nil => simp at h
  | cons a t ih =>
    cases i with
    | zero => simp
    | succ j =>
      simp only [List.set_cons_succ, List.getElem?_cons_succ]
      exact ih j (by simpa using h)

theorem slide_of_slot_none {b : Band α} (h : b.tape[b.head]? = some none) :
    Band.slide b = some (none, b) := by
  unfold Band.slide
  rw [h]

theorem slide_of_slot_some {b : Band α} {x : α} (h : b.tape[b.head]? = some (some x)) :
    Band.slide b = some (some x, { b with tape := b.tape.set b.head none,
                                          head := (b.head + 1) % b.tape.length,
                                          len := b.len - 1 }) := by
  unfold Band.slide
  rw [h]

theorem tailIdx_pos {b : Band α} (h : 0 < b.tape.length) :
    Band.tailIdx b = some ((b.head + (b.len - 1)) % b.tape.length) := by
  unfold Band.tailIdx
  rw [if_neg (by omega)]

/-- C7: on every reachable `Band` state (capacity ≥ 1) and every `Tape` state,
`pop_front` returns exactly the value `peek_front` held immediately before the
call (both read the logical front slot), the length drops by exactly one whenever
an item is returned, and on an empty buffer both yield nothing. -/
theorem pop_front_peek_front_duality :
    (∀ (α : Type) (LEN : Nat) (src : List α) (b : Band α),
        Reach (Band.new LEN src) b → 0 < LEN →
        (∀ (v : Option α) (b2 : Band α), Band.popFront b = some (v, b2) →
            v = Band.peekFront b ∧ (v.isSome = true → b2.len + 1 = b.len)) ∧
        (b.len = 0 → Band.popFront b = some (none, b) ∧ Band.peekFront b = none)) ∧
    (∀ (α : Type) (t : Tape α),
        (Tape.popFront t).1 = Tape.peekFront t ∧
        ((Tape.popFront t).1.isSome = true → (Tape.popFront t).2.length + 1 = t.length) ∧
        (t.length = 0 → (Tape.popFront t).1 = none ∧ Tape.peekFront t = none)) := by
  constructor
  · intro α LEN src b hR hLEN
    obtain ⟨⟨h1, h2⟩, hlenr⟩ := reach_inv hR (inv_new LEN src)
    have hcap : b.tape.length = LEN := by simpa [Band.new] using hlenr
    have hhead : b.head < b.tape.length := by
      rcases h2 with h2 | h2
      · omega
      · exact h2
    have hidx : (b.head + 0) % b.tape.length = b.head := by
      rw [Nat.add_zero]
      exact Nat.mod_eq_of_lt hhead
    constructor
    · intro v b2 hp
      unfold Band.popFront at hp
      cases hs : b.tape[b.head]? with
      | none =>
        rw [Band.slide, hs] at hp
        exact absurd hp (by simp)
      | some o =>
        have hpf : Band.peekFront b = o := by
          unfold Band.peekFront Band.peekAt
          rw [if_neg (by omega), hidx, hs]
          cases o <;> rfl
        cases o with
        | none =>
          rw [slide_of_slot_none hs] at hp
          simp only [Option.some_inj, Prod.mk.injEq] at hp
          obtain ⟨rfl, rfl⟩ := hp
          exact ⟨hpf.symm, by intro hx; simp at hx⟩
        | some x =>
          rw [slide_of_slot_some hs] at hp
          simp only [Option.some_inj, Prod.mk.injEq] at hp
          obtain ⟨rfl, rfl⟩ := hp
          have hop := occ_pos b.tape b.head x hs
          refine ⟨hpf.symm, fun _ => ?_⟩
          show b.len - 1 + 1 = b.len
          omega
    · intro hz
      have hocc0 : occ b.tape = 0 := by omega
      obtain ⟨o, ho⟩ : ∃ o, b.tape[b.head]? = some o :=
        ⟨b.tape[b.head], List.getElem?_eq_getElem hhead⟩
      have hon : o = none := occ_zero_slot b.tape b.head o hocc0 ho
      subst hon
      refine ⟨slide_of_slot_none ho, ?_⟩
      unfold Band.peekFront Band.peekAt
      rw [if_neg (by omega), hidx, ho]
      rfl
  · intro α t
    obtain ⟨it, tp⟩ := t
    cases tp with
    | nil =>
      refine ⟨rfl, ?_, fun _ => ⟨rfl, rfl⟩⟩
      intro hx
      simp [Tape.popFront] at hx
    | cons a l =>
      refine ⟨rfl, fun _ => ?_, fun hz => ?_⟩
      · show l.length + 1 = (a :: l).length
        simp
      · exact absurd hz (by simp [Tape.length])

/-- Witness for the pop/peek duality theorem: the reachable capacity-1 `Band`
holding `7`, obtained from `Band.new 1 [7]` by one `expand`. -/
theorem pop_front_peek_front_duality_witness :
    Band.popFront (⟨[], [some 7], 0, 1⟩ : Band Nat) = some (some 7, ⟨[], [none], 0, 0⟩) ∧
    some 7 = Band.peekFront (⟨[], [some 7], 0, 1⟩ : Band Nat) ∧
    (⟨[], [none], 0, 0⟩ : Band Nat).len + 1 = (⟨[], [some 7], 0, 1⟩ : Band Nat).len := by
  have hreach : Reach (Band.new 1 [7]) (⟨[], [some 7], 0, 1⟩ : Band Nat) :=
    @Reach.expand Nat (Band.new 1 [7]) (Band.new 1 [7]) (⟨[], [some 7], 0, 1⟩ : Band Nat) true
      (Reach.refl _) (by decide)
  have h := (pop_front_peek_front_duality.1 Nat 1 [7] _ hreach (by decide)).1
      (some 7) (⟨[], [none], 0, 0⟩ : Band Nat) (by decide)
  exact ⟨by decide, h.1, h.2 (by decide)⟩

end Ribbon

namespace Ribbon

/-- C2 (amended): for every reachable `Band` state (capacity ≥ 1) and every `Tape`
whose source still yields an item, `progress` stores the new item at the logical
back and returns exactly the value `peek_front` held immediately before the call;
the length grows by one exactly when that value was nothing, and is unchanged
otherwise (the original claim's "returns nothing and grows by one below capacity"
only holds on an empty buffer). -/
theorem progress_returns_prior_front :
    (∀ (α : Type) (LEN : Nat) (src : List α) (b : Band α) (x : α) (xs : List α),
        Reach (Band.new LEN src) b → 0 < LEN → b.iter = x :: xs →
        ∃ b2 : Band α, Band.progress b = some (Band.peekFront b, b2) ∧
          b2.len = (if (Band.peekFront b).isSome then b.len else b.len + 1) ∧
          ∃ t : Nat, Band.tailIdx b2 = some t ∧ b2.tape[t]? = some (some x)) ∧
    (∀ (α : Type) (t : Tape α) (x : α) (xs : List α),
        t.iter = x :: xs →
        Tape.progress t = (Tape.peekFront t, ⟨xs, t.tape.tail ++ [x]⟩) ∧
        (t.tape.tail ++ [x]).length
          = (if (Tape.peekFront t).isSome then Tape.length t else Tape.length t + 1)) := by
  constructor
  · intro α LEN src b x xs hR hLEN hit
    obtain ⟨⟨h1, h2⟩, hlenr⟩ := reach_inv hR (inv_new LEN src)
    have hcap : b.tape.length = LEN := by simpa [Band.new] using hlenr
    have hhead : b.head < b.tape.length := by
      rcases h2 with h2 | h2
      · omega
      · exact h2
    have hpos : 0 < b.tape.length := by omega
    have hne : ¬ (b.tape.length = 0) := by omega
    obtain ⟨o, ho⟩ : ∃ o, b.tape[b.head]? = some o :=
      ⟨b.tape[b.head], List.getElem?_eq_getElem hhead⟩
    have hidx : (b.head + 0) % b.tape.length = b.head := by
      rw [Nat.add_zero]
      exact Nat.mod_eq_of_lt hhead
    have hpf : Band.peekFront b = o := by
      unfold Band.peekFront Band.peekAt
      rw [if_neg (by omega), hidx, ho]
      cases o <;> rfl
    rw [hpf]
    cases o with
    | none =>
      refine ⟨⟨xs, b.tape.set ((b.head + (b.len + 1 - 1)) % b.tape.length) (some x),
               b.head, b.len + 1⟩, ?_, by simp, ?_⟩
      · simp only [Band.progress, hit, iterNext, Band.slide, ho, Band.tailIdx,
          List.length_set, hne, if_false]
      · refine ⟨(b.head + (b.len + 1 - 1)) % b.tape.length, ?_, ?_⟩
        · simp only [Band.tailIdx, List.length_set, hne, if_false]
        · exact getElem?_set_self_of_lt _ _ _ (Nat.mod_lt _ hpos)
    | some y =>
      have hlen1 : 1 ≤ b.len := le_trans (occ_pos b.tape b.head y ho) h1
      refine ⟨⟨xs, (b.tape.set b.head none).set
                 (((b.head + 1) % b.tape.length + (b.len - 1 + 1 - 1)) % b.tape.length) (some x),
               (b.head + 1) % b.tape.length, b.len - 1 + 1⟩, ?_, by simp; omega, ?_⟩
      · simp only [Band.progress, hit, iterNext, Band.slide, ho, Band.tailIdx,
          List.length_set, hne, if_false]
      · refine ⟨((b.head + 1) % b.tape.length + (b.len - 1 + 1 - 1)) % b.tape.length, ?_, ?_⟩
        · simp only [Band.tailIdx, List.length_set, hne, if_false]
        · exact getElem?_set_self_of_lt _ _ _ (by simp only [List.length_set]; exact Nat.mod_lt _ hpos)
  · intro α t x xs hit
    obtain ⟨it, tp⟩ := t
    have hit2 : it = x :: xs := hit
    subst hit2
    refine ⟨rfl, ?_⟩
    cases tp with
    | nil => simp [Tape.peekFront, Tape.length]
    | cons a l => simp [Tape.peekFront, Tape.length]

/-- Witness for the amended `progress` theorem: the fresh capacity-2 `Band` over
source `[5, 6]` (reachable by reflexivity). -/
theorem progress_returns_prior_front_witness :
    (0 : Nat) < 2 ∧ (Band.new 2 [5, 6]).iter = 5 :: [6] ∧
    (∃ b2 : Band Nat,
        Band.progress (Band.new 2 [5, 6]) = some (Band.peekFront (Band.new 2 [5, 6]), b2) ∧
        b2.len = (if (Band.peekFront (Band.new 2 [5, 6])).isSome then (Band.new 2 [5, 6]).len
                  else (Band.new 2 [5, 6]).len + 1) ∧
        ∃ t : Nat, Band.tailIdx b2 = some t ∧ b2.tape[t]? = some (some 5)) := by
  refine ⟨by decide, rfl, ?_⟩
  exact progress_returns_prior_front.1 Nat 2 [5, 6] _ 5 [6] (Reach.refl _) (by decide) rfl

theorem expandLoopTrace_spec (step : σ → σ × Bool) (n : Nat) (s : σ) (exp : Bool) :
    (expandLoopTrace step n s exp).2.2.length ≤ n ∧
    (expandLoopTrace step n s exp).2.1 = (exp || (expandLoopTrace step n s exp).2.2.any (fun c => c)) ∧
    ((expandLoopTrace step n s exp).2.2.length < n →
        (expandLoopTrace step n s exp).2.2 = [false] ∧ exp = false) ∧
    expandLoop step n s exp = ((expandLoopTrace step n s exp).1, (expandLoopTrace step n s exp).2.1) := by
  induction n generalizing s exp with
  | zero => simp [expandLoopTrace, expandLoop]
  | succ m ih =>
    cases hp : step s with
    | mk s2 e =>
      simp only [expandLoopTrace, expandLoop, hp]
      cases exp with
      | false =>
        cases e with
        | false => simp
        | true =>
          obtain ⟨iha, ihb, ihc, ihd⟩ := ih s2 true
          simp only [Bool.false_or, if_pos, List.length_cons, List.any_cons, Bool.true_or]
          refine ⟨by omega, ?_, ?_, ihd⟩
          · rw [ihb]
            simp
          · intro hlt
            exact absurd (ihc (by omega)).2 (by simp)
      | true =>
        obtain ⟨iha, ihb, ihc, ihd⟩ := ih s2 true
        simp only [Bool.true_or, if_pos, List.length_cons, List.any_cons]
        refine ⟨by omega, ?_, ?_, ihd⟩
        · rw [ihb]
          simp
        · intro hlt
          exact absurd (ihc (by omega)).2 (by simp)

/-- C8 (amended): `expand_n(n)` issues at most `n` `expand` calls and returns `true`
iff at least one call reported growth; but it stops early only while no growth has
happened yet — only a no-growth report on the very first call stops the loop (so an
early-stopped trace is exactly `[false]`); after one successful growth every
remaining call is issued even if it reports no growth. -/
theorem expand_n_call_budget_and_result :
    ∀ (σ : Type) (step : σ → σ × Bool) (n : Nat) (s : σ),
      (expandNTrace step n s).2.2.length ≤ n ∧
      ((expandNTrace step n s).2.1 = true ↔ true ∈ (expandNTrace step n s).2.2) ∧
      ((expandNTrace step n s).2.2.length < n → (expandNTrace step n s).2.2 = [false]) ∧
      expandN step n s = ((expandNTrace step n s).1, (expandNTrace step n s).2.1) := by
  intro σ step n s
  obtain ⟨ha, hb, hc, hd⟩ := expandLoopTrace_spec step n s false
  simp only [Bool.false_or] at hb
  refine ⟨ha, ?_, fun h => (hc h).1, hd⟩
  rw [show expandNTrace step n s = expandLoopTrace step n s false from rfl, hb]
  simp only [List.any_eq_true]
  constructor
  · rintro ⟨c, hc1, hc2⟩
    cases c with
    | false => exact absurd hc2 (by simp)
    | true => exact hc1
  · intro hmem
    exact ⟨true, hmem, rfl⟩

/-- Witness for the `expand_n` budget theorem: `expand_n(2)` on a `Tape` over an
empty source stops after a single no-growth call. -/
theorem expand_n_call_budget_and_result_witness :
    (expandNTrace Tape.expand 2 (Tape.new ([] : List Nat))).2.2.length ≤ 2 ∧
    (expandNTrace Tape.expand 2 (Tape.new ([] : List Nat))).2.2 = [false] := by
  obtain ⟨ha, hb, hc, hd⟩ :=
    expand_n_call_budget_and_result (Tape Nat) Tape.expand 2 (Tape.new [])
  exact ⟨ha, hc (by decide)⟩

end Ribbon

namespace Ribbon

theorem getElem?_append_plus (l1 l2 : List β) (k : Nat) :
    (l1 ++ l2)[l1.length + k]? = l2[k]? := by
  induction l1 with
  | nil => simp
  | cons a t ih =>
    simp only [List.cons_append, List.length_cons]
    have hidx : t.length + 1 + k = t.length + k + 1 := by omega
    rw [hidx, List.getElem?_cons_succ]
    exact ih

theorem set_append_plus (l1 l2 : List β) (k : Nat) (v : β) :
    (l1 ++ l2).set (l1.length + k) v = l1 ++ l2.set k v := by
  induction l1 with
  | nil => simp
  | cons a t ih =>
    simp only [List.cons_append, List.length_cons]
    have hidx : t.length + 1 + k = t.length + k + 1 := by omega
    rw [hidx, List.set_cons_succ]
    rw [ih]

theorem getElem?_replicate_of_lt (v : β) (m i : Nat) (h : i < m) :
    (List.replicate m v)[i]? = some v := by
  induction m generalizing i with
  | zero => omega
  | succ n ih =>
    cases i with
    | zero => simp [List.replicate_succ]
    | succ j =>
      simp only [List.replicate_succ, List.getElem?_cons_succ]
      exact ih j (by omega)

theorem replicate_set (v : β) (m i : Nat) :
    (List.replicate m v).set i v = List.replicate m v := by
  induction m generalizing i with
  | zero => rfl
  | succ n ih =>
    cases i with
    | zero => simp [List.replicate_succ]
    | succ j => simp [List.replicate_succ, List.set_cons_succ, ih]

theorem expand_not_full_step {b : Band α} (hlen : b.len < b.tape.length) {o : Option α}
    (ho : b.tape[b.len]? = some o) :
    Band.expand b = some ({ b with iter := (iterNext b.iter).2,
                                   tape := b.tape.set b.len (iterNext b.iter).1,
                                   len := b.len + 1 }, (iterNext b.iter).1.isSome) := by
  unfold Band.expand Band.isFull
  rw [if_neg (by simp only [beq_iff_eq]; omega), ho]

/-- Filling an already-exhausted `Band` from head 0: every remaining `expand` call
writes `none` into the next slot and bumps `len`, leaving the tape unchanged. -/
theorem fill_exhausted (LEN : Nat) (A : List α) :
    ∀ (fuel j : Nat), A.length ≤ j → j + fuel = LEN →
      Band.expandNAux fuel ⟨[], A.map some ++ List.replicate (LEN - A.length) none, 0, j⟩ true
        = some (⟨[], A.map some ++ List.replicate (LEN - A.length) none, 0, LEN⟩, true) := by
  intro fuel
  induction fuel with
  | zero =>
    intro j hA hj
    have hjL : j = LEN := by omega
    subst hjL
    rfl
  | succ f ih =>
    intro j hA hj
    have hT : (A.map some ++ List.replicate (LEN - A.length) none).length = LEN := by
      simp only [List.length_append, List.length_map, List.length_replicate]
      omega
    have hslot : (A.map some ++ List.replicate (LEN - A.length) none)[j]? = some none := by
      have h1 : (A.map some).length + (j - A.length) = j := by
        simp only [List.length_map]
        omega
      rw [← h1, getElem?_append_plus]
      exact getElem?_replicate_of_lt none _ _ (by omega)
    have hset : (A.map some ++ List.replicate (LEN - A.length) none).set j none
        = A.map some ++ List.replicate (LEN - A.length) none := by
      have h1 : (A.map some).length + (j - A.length) = j := by
        simp only [List.length_map]
        omega
      rw [← h1, set_append_plus, replicate_set]
    simp only [Band.expandNAux]
    rw [expand_not_full_step
      (by show j < (A.map some ++ List.replicate (LEN - A.length) none).length; omega) hslot]
    simp only [iterNext, hset, Option.isSome_none, Bool.or_false, if_true]
    exact ih (j + 1) (by omega) (by omega)

/-- Filling a clean `Band` from head 0 while the source still produces: each call
appends the next source item at the next physical slot (padding with `none` once
the source runs out). -/
theorem fill_active (LEN : Nat) :
    ∀ (fuel : Nat) (A rs : List α), A.length + fuel = LEN →
      Band.expandNAux fuel ⟨rs, A.map some ++ List.replicate fuel none, 0, A.length⟩ true
        = some (⟨rs.drop fuel,
                 (A ++ rs.take fuel).map some
                   ++ List.replicate (LEN - (A ++ rs.take fuel).length) none,
                 0, LEN⟩, true) := by
  intro fuel
  induction fuel with
  | zero =>
    intro A rs hA
    have hAL : A.length = LEN := by omega
    simp only [Band.expandNAux, List.take_zero, List.drop_zero, List.append_nil, hAL,
      Nat.sub_self, List.replicate_zero]
  | succ f ih =>
    intro A rs hA
    have hT : (A.map some ++ List.replicate (f + 1) none).length = LEN := by
      simp only [List.length_append, List.length_map, List.length_replicate]
      omega
    have hslot : (A.map some ++ List.replicate (f + 1) none)[A.length]? = some none := by
      have h1 : (A.map some).length + 0 = A.length := by simp
      rw [← h1, getElem?_append_plus]
      simp [List.replicate_succ]
    simp only [Band.expandNAux]
    rw [expand_not_full_step
      (by show A.length < (A.map some ++ List.replicate (f + 1) none).length; omega) hslot]
    cases rs with
    | nil =>
      have hset : (A.map some ++ List.replicate (f + 1) none).set A.length none
          = A.map some ++ List.replicate (f + 1) none := by
        have h1 : (A.map some).length + 0 = A.length := by simp
        rw [← h1, set_append_plus]
        simp [replicate_set]
      simp only [iterNext, hset, Option.isSome_none, Bool.or_false, if_true]
      have hrep : LEN - A.length = f + 1 := by omega
      have hfe := fill_exhausted LEN A f (A.length + 1) (by omega) (by omega)
      rw [hrep] at hfe
      rw [hfe]
      simp only [List.drop_nil, List.take_nil, List.append_nil]
      rw [hrep]
    | cons x rs2 =>
      have hset : (A.map some ++ List.replicate (f + 1) none).set A.length (some x)
          = (A ++ [x]).map some ++ List.replicate f none := by
        have h1 : (A.map some).length + 0 = A.length := by simp
        rw [← h1, set_append_plus]
        simp [List.replicate_succ, List.map_append]
      simp only [iterNext, hset, Option.isSome_some, Bool.or_true, if_true]
      have hlen : (A ++ [x]).length = A.length + 1 := by simp
      have hstep := ih (A ++ [x]) rs2 (by simp only [hlen]; omega)
      rw [hlen] at hstep
      rw [hstep]
      simp [List.take_succ_cons, List.drop_succ_cons, List.append_assoc]

end Ribbon

namespace Ribbon

/-- Modelled from the spec: the output stream of a pure pass-through iterator over
pending items `rest` — the items in source order, then nothing forever.  This is
the specification side of the Band-iterator refinement claim. -/
def expect : List α → Nat → List (Option α)
  | _, 0 => []
  | [], k + 1 => none :: expect [] k
  | x :: r, k + 1 => some x :: expect r k

theorem refill_cons (LEN : Nat) (hL : 0 < LEN) (x : α) (r : List α) :
    Band.expandN LEN ⟨x :: r, List.replicate LEN none, 0, 0⟩
      = some (⟨(x :: r).drop LEN,
               ((x :: r).take LEN).map some
                 ++ List.replicate (LEN - ((x :: r).take LEN).length) none,
               0, LEN⟩, true) := by
  obtain ⟨L, rfl⟩ : ∃ L, LEN = L + 1 := ⟨LEN - 1, by omega⟩
  unfold Band.expandN
  simp only [Band.expandNAux]
  rw [expand_not_full_step
    (by show 0 < (List.replicate (L + 1) (none : Option α)).length; simp)
    (getElem?_replicate_of_lt none (L + 1) 0 (by omega))]
  have hset : (List.replicate (L + 1) (none : Option α)).set 0 (some x)
      = [x].map some ++ List.replicate L none := by
    simp [List.replicate_succ]
  simp only [iterNext, hset, Option.isSome_some, Bool.false_or, if_true]
  have hfa := fill_active (L + 1) L [x] r (by simp only [List.length_cons, List.length_nil]; omega)
  simp only [List.length_cons, List.length_nil, Nat.zero_add] at hfa
  rw [hfa]
  simp [List.take_succ_cons, List.drop_succ_cons, List.append_assoc]

theorem refill_nil (LEN : Nat) (hL : 0 < LEN) :
    Band.expandN LEN (⟨[], List.replicate LEN none, 0, 0⟩ : Band α)
      = some (⟨[], List.replicate LEN none, 0, 1⟩, false) := by
  obtain ⟨L, rfl⟩ : ∃ L, LEN = L + 1 := ⟨LEN - 1, by omega⟩
  unfold Band.expandN
  simp only [Band.expandNAux]
  rw [expand_not_full_step
    (by show 0 < (List.replicate (L + 1) (none : Option α)).length; simp)
    (getElem?_replicate_of_lt none (L + 1) 0 (by omega))]
  simp [iterNext, replicate_set]

/-- Invariant shapes of a `Band` driven solely through the iterator `next`:
`clean` between full windows (empty buffer, head back at slot 0), `mid` inside a
window (`j` items already emitted), `dead` once exhaustion padding is stuck
(`len` positive over an all-empty tape).  `rest` is the list of source items the
iterator still has to emit. -/
inductive Sim (LEN : Nat) : Band α → List α → Prop where
  | clean (rest : List α) :
      Sim LEN ⟨rest, List.replicate LEN none, 0, 0⟩ rest
  | mid (I rem : List α) (j pad : Nat) :
      rem ≠ [] → (pad = 0 ∨ I = []) → j + rem.length + pad = LEN →
      Sim LEN ⟨I, List.replicate j none ++ rem.map some ++ List.replicate pad none, j,
               rem.length + pad⟩ (rem ++ I)
  | dead (h m : Nat) :
      h < LEN → 1 ≤ m →
      Sim LEN ⟨[], List.replicate LEN none, h, m⟩ []

theorem sim_of_eq {LEN : Nat} {b b' : Band α} {r r' : List α}
    (h : Sim LEN b' r') (hb : b = b') (hr : r = r') : Sim LEN b r := by
  subst hb
  subst hr
  exact h

theorem next_of_empty {b : Band α} (hb : b.len = 0) {p : Band α × Bool}
    (he : Band.expandN b.tape.length b = some p) : Band.next b = Band.popFront p.1 := by
  unfold Band.next
  rw [if_pos hb, he]

theorem next_of_nonempty {b : Band α} (hb : ¬ (b.len = 0)) :
    Band.next b = Band.popFront b := by
  unfold Band.next
  rw [if_neg hb]

end Ribbon

namespace Ribbon

theorem getElem?_replicate_append_cons (j : Nat) (o : Option α) (Z : List (Option α)) :
    (List.replicate j (none : Option α) ++ o :: Z)[j]? = some o := by
  induction j with
  | zero => simp
  | succ n ih => simpa [List.replicate_succ] using ih

theorem set_replicate_append_cons (j : Nat) (o v : Option α) (Z : List (Option α)) :
    (List.replicate j (none : Option α) ++ o :: Z).set j v
      = List.replicate j none ++ v :: Z := by
  induction j with
  | zero => rfl
  | succ n ih => simp [List.replicate_succ, List.set_cons_succ, ih]

theorem replicate_append_cons_none (j : Nat) (X : List (Option α)) :
    List.replicate j (none : Option α) ++ none :: X = List.replicate (j + 1) none ++ X := by
  induction j with
  | zero => rfl
  | succ n ih => simp [List.replicate_succ, ih]

theorem popFront_head0_cons {it : List α} {Y : List (Option α)} {x : α} {n : Nat} :
    Band.popFront (⟨it, some x :: Y, 0, n⟩ : Band α)
      = some (some x, ⟨it, none :: Y, 1 % (Y.length + 1), n - 1⟩) := by
  show Band.slide _ = _
  rw [slide_of_slot_some (show ((some x :: Y : List (Option α)))[(0 : Nat)]? = some (some x) by simp)]
  simp

theorem popFront_mid {it : List α} {Z : List (Option α)} {y : α} {j n : Nat} :
    Band.popFront (⟨it, List.replicate j none ++ some y :: Z, j, n⟩ : Band α)
      = some (some y, ⟨it, List.replicate j none ++ none :: Z,
                       (j + 1) % (List.replicate j (none : Option α)
                                    ++ some y :: Z).length, n - 1⟩) := by
  show Band.slide _ = _
  rw [slide_of_slot_some (getElem?_replicate_append_cons j (some y) Z)]
  rw [set_replicate_append_cons]

/-- One iterator step preserves the `Sim` invariant and emits exactly the head of
the pending list (or nothing once it is empty). -/
theorem sim_next (LEN : Nat) (hL : 0 < LEN) {b : Band α} {rest : List α}
    (hS : Sim LEN b rest) :
    ∃ b2, Band.next b = some ((iterNext rest).1, b2) ∧ Sim LEN b2 (iterNext rest).2 := by
  obtain ⟨L, rfl⟩ : ∃ L, LEN = L + 1 := ⟨LEN - 1, by omega⟩
  cases hS with
  | clean rest =>
    cases rest with
    | nil =>
      have hrefill :
          Band.expandN (⟨([] : List α), List.replicate (L + 1) none, 0, 0⟩ : Band α).tape.length
              (⟨[], List.replicate (L + 1) none, 0, 0⟩ : Band α)
            = some ((⟨[], List.replicate (L + 1) none, 0, 1⟩ : Band α), false) := by
        have h : (⟨([] : List α), List.replicate (L + 1) none, 0, 0⟩ : Band α).tape.length
            = L + 1 := by simp
        rw [h]
        exact refill_nil (L + 1) hL
      rw [next_of_empty rfl hrefill]
      refine ⟨⟨[], List.replicate (L + 1) none, 0, 1⟩, ?_, Sim.dead 0 1 (by omega) (by omega)⟩
      exact slide_of_slot_none (getElem?_replicate_of_lt none (L + 1) 0 (by omega))
    | cons x r =>
      have hrefill :
          Band.expandN (⟨x :: r, List.replicate (L + 1) none, 0, 0⟩ : Band α).tape.length
              (⟨x :: r, List.replicate (L + 1) none, 0, 0⟩ : Band α)
            = some ((⟨(x :: r).drop (L + 1),
                     ((x :: r).take (L + 1)).map some
                       ++ List.replicate ((L + 1) - ((x :: r).take (L + 1)).length) none,
                     0, L + 1⟩ : Band α), true) := by
        have h : (⟨x :: r, List.replicate (L + 1) none, 0, 0⟩ : Band α).tape.length = L + 1 := by
          simp
        rw [h]
        exact refill_cons (L + 1) hL x r
      rw [next_of_empty rfl hrefill]
      have htk : ((x :: r).take (L + 1)).map some
            ++ List.replicate ((L + 1) - ((x :: r).take (L + 1)).length) none
          = some x :: ((r.take L).map some ++ List.replicate (L - (r.take L).length) none) := by
        have hc : (L + 1) - (x :: r.take L).length = L - (r.take L).length := by
          simp only [List.length_cons, List.length_take]
          omega
        simp only [List.take_succ_cons, List.map_cons, List.cons_append, hc]
      rw [htk, popFront_head0_cons]
      have hY : ((r.take L).map some
          ++ List.replicate (L - (r.take L).length) (none : Option α)).length = L := by
        simp only [List.length_append, List.length_map, List.length_replicate, List.length_take]
        omega
      refine ⟨_, rfl, ?_⟩
      rw [List.drop_succ_cons, hY, Nat.add_sub_cancel]
      simp only [iterNext]
      rcases hrt : r.take L with _ | ⟨z, w⟩
      · simp only [List.map_nil, List.nil_append, List.length_nil, Nat.sub_zero]
        by_cases hL0 : L = 0
        · subst hL0
          rw [List.drop_zero, ← List.replicate_succ, Nat.mod_self]
          exact Sim.clean r
        · have hr0 : r = [] := by
            rcases List.take_eq_nil_iff.mp hrt with h | h
            · exact absurd h hL0
            · exact h
          subst hr0
          rw [List.drop_nil, ← List.replicate_succ, Nat.mod_eq_of_lt (show 1 < L + 1 by omega)]
          exact Sim.dead 1 L (by omega) (by omega)
      · have hL1 : 1 ≤ L := by
          by_contra hcon
          have hzero : L = 0 := by omega
          subst hzero
          simp at hrt
        have hlenzw : (z :: w).length = min L r.length := by
          rw [← hrt]
          simp [List.length_take]
        have hpI2 : L - (z :: w).length = 0 ∨ r.drop L = [] := by
          rcases Nat.le_total L r.length with h | h
          · left
            omega
          · right
            exact List.drop_eq_nil_of_le h
        refine sim_of_eq
          (Sim.mid (r.drop L) (z :: w) 1 (L - (z :: w).length) (by simp) hpI2 (by omega))
          ?_ ?_
        · rw [Nat.mod_eq_of_lt (show 1 < L + 1 by omega),
            show (z :: w).length + (L - (z :: w).length) = L from by omega]
          rfl
        · rw [← hrt, List.take_append_drop]
  | mid I rem j pad hrem hpI hsum =>
    cases rem with
    | nil => exact absurd rfl hrem
    | cons y rem2 =>
      have hne : ¬ ((⟨I, List.replicate j none ++ (y :: rem2).map some
          ++ List.replicate pad none, j, (y :: rem2).length + pad⟩ : Band α).len = 0) := by
        show ¬ ((y :: rem2).length + pad = 0)
        simp
      rw [next_of_nonempty hne]
      have hD : (List.replicate j (none : Option α) ++ (y :: rem2).map some
          ++ List.replicate pad none)
          = List.replicate j none ++ some y :: (rem2.map some ++ List.replicate pad none) := by
        simp [List.append_assoc]
      rw [hD, popFront_mid]
      have hDlen : (List.replicate j (none : Option α)
          ++ some y :: (rem2.map some ++ List.replicate pad none)).length = L + 1 := by
        simp only [List.length_append, List.length_replicate, List.length_cons,
          List.length_map]
        simp only [List.length_cons] at hsum
        omega
      have hsum2 : j + (rem2.length + 1) + pad = L + 1 := by
        simp only [List.length_cons] at hsum
        omega
      refine ⟨_, rfl, ?_⟩
      rw [replicate_append_cons_none j, hDlen,
        show (y :: rem2).length + pad - 1 = rem2.length + pad from by
          simp only [List.length_cons]; omega]
      simp only [List.cons_append, iterNext]
      rcases rem2 with _ | ⟨z, w⟩
      · have hs3 : j + 1 + pad = L + 1 := by simpa using hsum2
        simp only [List.map_nil, List.nil_append, List.length_nil, Nat.zero_add]
        by_cases hp0 : pad = 0
        · subst hp0
          rw [show j + 1 = L + 1 from by omega]
          rw [Nat.mod_self]
          simp only [List.replicate_zero, List.append_nil]
          exact Sim.clean I
        · have hI : I = [] := by
            rcases hpI with h | h
            · exact absurd h hp0
            · exact h
          subst hI
          rw [Nat.mod_eq_of_lt (show j + 1 < L + 1 by omega), ← List.replicate_add,
            show j + 1 + pad = L + 1 from by omega]
          exact Sim.dead (j + 1) pad (by omega) (by omega)
      · have hs4 : j + (w.length + 1 + 1) + pad = L + 1 := by
          simp only [List.length_cons] at hsum2
          omega
        rw [← List.append_assoc, Nat.mod_eq_of_lt (show j + 1 < L + 1 by omega)]
        exact Sim.mid I (z :: w) (j + 1) pad (by simp) hpI
          (by simp only [List.length_cons]; omega)
  | dead h m hh hm =>
    have hne : ¬ ((⟨([] : List α), List.replicate (L + 1) none, h, m⟩ : Band α).len = 0) := by
      show ¬ (m = 0)
      omega
    rw [next_of_nonempty hne]
    refine ⟨_, ?_, Sim.dead h m hh hm⟩
    exact slide_of_slot_none (getElem?_replicate_of_lt none (L + 1) h hh)

end Ribbon

namespace Ribbon

theorem take_append_replicate (v : β) :
    ∀ (k : Nat) (A : List β) (m : Nat), k ≤ m →
      (A ++ List.replicate m v).take k = (A ++ List.replicate k v).take k := by
  intro k
  induction k with
  | zero => simp
  | succ n ih =>
    intro A m hk
    cases A with
    | nil =>
      obtain ⟨m2, rfl⟩ : ∃ m2, m = m2 + 1 := ⟨m - 1, by omega⟩
      have hn := ih [] m2 (by omega)
      simp only [List.nil_append] at hn
      simp only [List.nil_append, List.replicate_succ, List.take_succ_cons, hn]
    | cons a A2 =>
      simp only [List.cons_append, List.take_succ_cons]
      rw [ih A2 m (by omega), ih A2 (n + 1) (by omega)]

theorem expect_eq_take (src : List α) (k : Nat) :
    expect src k = (src.map some ++ List.replicate k (none : Option α)).take k := by
  induction k generalizing src with
  | zero => simp [expect]
  | succ n ih =>
    cases src with
    | nil =>
      simp only [expect, List.map_nil, List.nil_append, List.replicate_succ,
        List.take_succ_cons]
      rw [ih []]
      simp
    | cons x r =>
      simp only [expect, List.map_cons, List.cons_append, List.take_succ_cons]
      rw [ih r, take_append_replicate (none : Option α) n (r.map some) (n + 1) (by omega)]

theorem runIter_expect (LEN : Nat) (hL : 0 < LEN) :
    ∀ (k : Nat) (b : Band α) (rest : List α), Sim LEN b rest →
      ∃ b2, Band.runIter k b = some (expect rest k, b2) := by
  intro k
  induction k with
  | zero =>
    intro b rest hS
    cases rest with
    | nil => exact ⟨b, rfl⟩
    | cons x r => exact ⟨b, rfl⟩
  | succ n ih =>
    intro b rest hS
    obtain ⟨b2, hnext, hS2⟩ := sim_next LEN hL hS
    obtain ⟨b3, hrun⟩ := ih b2 _ hS2
    refine ⟨b3, ?_⟩
    show Band.runIter (n + 1) b = some (expect rest (n + 1), b3)
    simp only [Band.runIter]
    rw [hnext]
    simp only
    rw [hrun]
    cases rest <;> simp [iterNext, expect]

/-- C9: driving a `Band` of capacity `N ≥ 1` solely through the iterator `next`
yields exactly the source items, in source order, then nothing — a pure
pass-through (`next` refills via `expand_n(N)` exactly when the buffer is empty
and then pops the front, by definition of `Band.next`).  The second conjunct ties
the emitted stream `expect` to the canonical take/pad form. -/
theorem band_iterator_passthrough :
    ∀ (α : Type) (LEN : Nat) (src : List α) (k : Nat), 0 < LEN →
      (∃ b2, Band.runIter k (Band.new LEN src) = some (expect src k, b2)) ∧
      expect src k = (src.map some ++ List.replicate k (none : Option α)).take k := by
  intro α LEN src k hL
  exact ⟨runIter_expect LEN hL k (Band.new LEN src) src (Sim.clean src),
         expect_eq_take src k⟩

/-- Witness for the pass-through theorem: 5 `next` calls on a capacity-2 `Band`
over source `[0, 1, 2]` yield `0, 1, 2` then nothing. -/
theorem band_iterator_passthrough_witness :
    (0 : Nat) < 2 ∧
    (∃ b2, Band.runIter 5 (Band.new 2 [0, 1, 2]) = some (expect [0, 1, 2] 5, b2)) ∧
    expect [0, 1, 2] 5
      = (([0, 1, 2].map some) ++ List.replicate 5 (none : Option Nat)).take 5 := by
  refine ⟨by decide, ?_, ?_⟩
  · exact (band_iterator_passthrough Nat 2 [0, 1, 2] 5 (by decide)).1
  · exact (band_iterator_passthrough Nat 2 [0, 1, 2] 5 (by decide)).2

end Ribbon
